import Mathlib

/-!
Verification of the batched graph construction and index bookkeeping in
`model/encoder.py` (class `GraphASTEncoder`).

The shallow embedding below translates the Python source:
  * `OrderedDict` keyed by `(ast_id, node_id)` with `setdefault(k, len(d))`
    becomes an insertion-ordered association list `List (K × Nat)` with
    `alookup` / `setdefault`;
  * the four adjacency accumulators and the mapping become the record
    `AdjState`, threaded through the loops of
    `get_batched_adjacency_lists`;
  * a `KeyError` (terminal-chain pair whose endpoint was never assigned a
    combined id) and the `ValueError` raised by `max()` on an empty batch
    become `Except` errors;
  * trees, vocabulary, grammar and the GNN propagation engine are external
    collaborators (they live outside this source unit); they are modelled
    by their interfaces: a `Tree` exposes its edge lists, size and node
    lookup, `Vocab`/`Grammar` expose integer-id resolution, and the engine
    is an abstract function parameter.
-/

set_option maxHeartbeats 1000000

namespace DIRE

/-- Composite key `(tree-index, local-node-id)`, as in the Python
`(ast_id, node_id)` tuples used for `tree_node2batch_graph_node`. -/
abbrev K := Nat × Nat

/-- Interface of a node of an `AbstractSyntaxTree` (external collaborator,
`utils.ast.SyntaxNode`): terminal nodes carry a variable identifier
(`var_id`), non-terminal nodes a grammar category (`node_type`).
Identifiers and categories are represented by natural-number tokens. -/
structure SyntaxNode where
  is_variable_node : Bool
  var_id : Nat
  node_type : Nat
deriving Repr, DecidableEq

/-- Interface of `utils.ast.AbstractSyntaxTree` as consumed by the encoder:
`adjacency_list` is the ordered list of (parent, child) edges given by
their local `node_id`s, `adjacent_terminal_nodes` the ordered list of
adjacent-terminal local-id pairs, `size` the node count, and `id_to_node`
the lookup from local id to node. -/
structure Tree where
  adjacency_list : List (Nat × Nat)
  adjacent_terminal_nodes : List (Nat × Nat)
  size : Nat
  id_to_node : Nat → SyntaxNode

instance : Inhabited Tree :=
  ⟨⟨[], [], 0, fun _ => ⟨true, 0, 0⟩⟩⟩

/-- Interface of the vocabulary (external): `source` resolves a variable
identifier to an integer index, `source_size` is `len(vocab.source)`. -/
structure Vocab where
  source : Nat → Nat
  source_size : Nat

/-- Interface of the grammar (external): `syntax_type_to_id` resolves a
syntax category to an integer index. -/
structure Grammar where
  syntax_type_to_id : Nat → Nat

/-- Mirror of `model.gnn.AdjacencyList` as constructed by the encoder:
a node count together with a list of directed combined-id edges.
(The `device` argument of the Python constructor has no semantic
content and is omitted.) -/
structure AdjacencyList where
  node_num : Nat
  adj_list : List (Nat × Nat)
deriving Repr, DecidableEq

/-- Lookup in an insertion-ordered association list (the `OrderedDict`
read `d[k]`). -/
def alookup : List (K × Nat) → K → Option Nat
  | [], _ => none
  | p :: rest, k => if p.1 = k then some p.2 else alookup rest k

/-- Python's `d.setdefault(k, len(d))` on an insertion-ordered association list:
returns the (possibly extended) dictionary together with the value now
associated to `k`.  A fresh key is appended at the end with value
`len(d)` at insertion time. -/
def setdefault (m : List (K × Nat)) (k : K) : List (K × Nat) × Nat :=
  match alookup m k with
  | some v => (m, v)
  | none => (m ++ [(k, m.length)], m.length)

/-- The map component of `setdefault` (used to state how the mapping
evolves independently of the returned id). -/
def stepKey (m : List (K × Nat)) (k : K) : List (K × Nat) :=
  (setdefault m k).1

/-- The mutable state of `get_batched_adjacency_lists`: the combined-id
mapping plus the four adjacency accumulators, named as in the source. -/
structure AdjState where
  tree_node2batch_graph_node : List (K × Nat)
  ast_adj_list : List (Nat × Nat)
  reversed_ast_adj_list : List (Nat × Nat)
  terminal_nodes_adj_list : List (Nat × Nat)
  reversed_terminal_nodes_adj_list : List (Nat × Nat)
deriving Repr, DecidableEq

deriving instance DecidableEq for Except

/-- The empty state at the top of `get_batched_adjacency_lists`. -/
def initState : AdjState := ⟨[], [], [], [], []⟩

/-- One iteration of the parent/child edge loop (lines 61-70 of the
source): `setdefault` both endpoints, then append the forward and the
reversed combined-id pair. -/
def processEdge (ast_id : Nat) (st : AdjState) (e : Nat × Nat) : AdjState :=
  let r1 := setdefault st.tree_node2batch_graph_node (ast_id, e.1)
  let r2 := setdefault r1.1 (ast_id, e.2)
  { st with
      tree_node2batch_graph_node := r2.1
      ast_adj_list := st.ast_adj_list ++ [(r1.2, r2.2)]
      reversed_ast_adj_list := st.reversed_ast_adj_list ++ [(r2.2, r1.2)] }

/-- The parent/child edge loop of one tree. -/
def processAdjEdges (ast_id : Nat) (edges : List (Nat × Nat)) (st : AdjState) : AdjState :=
  edges.foldl (processEdge ast_id) st

/-- One iteration of the adjacent-terminal loop (lines 73-78): plain
dictionary reads, so a missing key raises (`KeyError`), modelled as
`Except.error`. -/
def processChainEdge (ast_id : Nat) (st : AdjState) (e : Nat × Nat) : Except Unit AdjState :=
  match alookup st.tree_node2batch_graph_node (ast_id, e.1),
        alookup st.tree_node2batch_graph_node (ast_id, e.2) with
  | some a, some b =>
      .ok { st with
              terminal_nodes_adj_list := st.terminal_nodes_adj_list ++ [(a, b)]
              reversed_terminal_nodes_adj_list := st.reversed_terminal_nodes_adj_list ++ [(b, a)] }
  | _, _ => .error ()

/-- The adjacent-terminal loop of one tree. -/
def processChain (ast_id : Nat) : List (Nat × Nat) → AdjState → Except Unit AdjState
  | [], st => .ok st
  | e :: es, st =>
      match processChainEdge ast_id st e with
      | .ok st' => processChain ast_id es st'
      | .error err => .error err

/-- The body of the outer `for ast_id, syntax_tree in enumerate(asts)`
loop for one tree. -/
def processTree (ast_id : Nat) (t : Tree) (st : AdjState) : Except Unit AdjState :=
  processChain ast_id t.adjacent_terminal_nodes (processAdjEdges ast_id t.adjacency_list st)

/-- The outer loop, carrying the running `enumerate` index. -/
def runBatchFrom : Nat → List Tree → AdjState → Except Unit AdjState
  | _, [], st => .ok st
  | i, t :: ts, st =>
      match processTree i t st with
      | .ok st' => runBatchFrom (i + 1) ts st'
      | .error err => .error err

/-- The whole loop of `get_batched_adjacency_lists`, starting from the
empty state. -/
def runBatch (asts : List Tree) : Except Unit AdjState :=
  runBatchFrom 0 asts initState

/-- The triple returned by `get_batched_adjacency_lists`. -/
structure BatchedAdj where
  adj_lists : List AdjacencyList
  tree_node2batch_graph_node : List (K × Nat)
  batch_graph_node2tree_node : List (Nat × K)
deriving Repr, DecidableEq

/-- Embedding of `GraphASTEncoder.get_batched_adjacency_lists` (lines 52-92): run the
two nested loops, then assemble the relation list — always the forward
and reversed tree relations, plus the two terminal-chain relations only
when `terminal_nodes_adj_list` is non-empty — and the inverse mapping. -/
def get_batched_adjacency_lists (asts : List Tree) : Except Unit BatchedAdj :=
  match runBatch asts with
  | .error err => .error err
  | .ok st =>
      let all_nodes_num := st.tree_node2batch_graph_node.length
      let base := [AdjacencyList.mk all_nodes_num st.ast_adj_list,
                   AdjacencyList.mk all_nodes_num st.reversed_ast_adj_list]
      let adj_lists :=
        if st.terminal_nodes_adj_list.isEmpty then base
        else base ++ [AdjacencyList.mk all_nodes_num st.terminal_nodes_adj_list,
                      AdjacencyList.mk all_nodes_num st.reversed_terminal_nodes_adj_list]
      .ok ⟨adj_lists,
           st.tree_node2batch_graph_node,
           st.tree_node2batch_graph_node.map (fun p => (p.2, p.1))⟩

/-- The feature-index computation of
`GraphASTEncoder.get_batched_tree_init_encoding` (lines 99-107): iterate
the inverse mapping in combined-id order; a terminal node contributes its
vocabulary index, a non-terminal node its grammar index offset by
`len(vocab.source)`.  (The subsequent `src_node_embedding(indices)` is an
external per-index table lookup and is applied by the caller.) -/
def get_batched_tree_init_encoding (asts : List Tree)
    (batch_graph_node2tree_node : List (Nat × K))
    (vocab : Vocab) (grammar : Grammar) : List Nat :=
  batch_graph_node2tree_node.map (fun p =>
    let node := (asts.getD p.2.1 default).id_to_node p.2.2
    if node.is_variable_node then vocab.source node.var_id
    else grammar.syntax_type_to_id node.node_type + vocab.source_size)

/-- Line 117, `max_node_num = max(tree.size for tree in batch_syntax_trees)`,
only meaningful for a non-empty batch. -/
def max_node_num (trees : List Tree) : Nat :=
  (trees.map Tree.size).foldl Nat.max 0

/-- Stable insertion into a list sorted by first component (helper for
Python's stable `sorted(..., key=lambda t: t[0])`). -/
def insertSorted (x : Nat × Nat) : List (Nat × Nat) → List (Nat × Nat)
  | [] => [x]
  | y :: ys => if x.1 ≤ y.1 then x :: y :: ys else y :: insertSorted x ys

/-- Stable sort by first component. -/
def sortByFst (l : List (Nat × Nat)) : List (Nat × Nat) :=
  l.foldr insertSorted []

/-- Lines 122-128 for one tree: the combined ids of tree `e_id`, ordered
by ascending local node id. -/
def treeRowIds (m : List (K × Nat)) (e_id : Nat) : List Nat :=
  let example_nodes_with_batch_id :=
    (m.filter (fun p => p.1.1 == e_id)).map (fun p => (p.1.2, p.2))
  (sortByFst example_nodes_with_batch_id).map Prod.snd

/-- Errors of `unpack_batch_encoding`: `max()` of an empty sequence
raises `ValueError`, and `index[e_id, :len] = ids` raises when the row
does not fit. -/
inductive UnpackErr where
  | emptyMax
  | broadcast
deriving Repr, DecidableEq

/-- One row of the `index` / mask matrices (lines 119-131): the row of
combined ids padded with zeros to `max_node_num`, and the 1/0 validity
mask row. -/
def indexRow (m : List (K × Nat)) (e_id maxN : Nat) :
    Except UnpackErr (List Nat × List Nat) :=
  let ids := treeRowIds m e_id
  if ids.length ≤ maxN then
    .ok (ids ++ List.replicate (maxN - ids.length) 0,
         List.replicate ids.length 1 ++ List.replicate (maxN - ids.length) 0)
  else .error .broadcast

/-- Effectful map over a list in `Except` (the row-filling loop aborts at
the first error). -/
def mapMExcept {ε β : Type} (f : Nat → Except ε β) : List Nat → Except ε (List β)
  | [] => .ok []
  | x :: xs =>
      match f x with
      | .ok y =>
          match mapMExcept f xs with
          | .ok ys => .ok (y :: ys)
          | .error err => .error err
      | .error err => .error err

/-- Embedding of `GraphASTEncoder.unpack_batch_encoding` (lines 113-138) over an
abstract per-node encoding type `α` with designated zero element `zero`:
build the per-tree index and mask rows, gather
`flattened_node_encodings[index]`, then zero every masked-out position
(`masked_fill_` with scalar `0` where the mask is `0`).  Returns the
pair `(batch_tree_node_encoding, batch_tree_node_masks)`. -/
def unpack_batch_encoding {α : Type} (flattened_node_encodings : List α) (zero : α)
    (batch_syntax_trees : List Tree) (example_node2batch_node_map : List (K × Nat)) :
    Except UnpackErr (List (List α) × List (List Nat)) :=
  if batch_syntax_trees.isEmpty then .error .emptyMax
  else
    match mapMExcept
          (fun e => indexRow example_node2batch_node_map e
            (max_node_num batch_syntax_trees))
          (List.range batch_syntax_trees.length) with
    | .error err => .error err
    | .ok rows =>
        let index := rows.map Prod.fst
        let masks := rows.map Prod.snd
        let gathered :=
          index.map (fun row => row.map (fun i => flattened_node_encodings.getD i zero))
        let out :=
          List.zipWith (fun encRow maskRow =>
              List.zipWith (fun v mk => if mk == 0 then zero else v) encRow maskRow)
            gathered masks
        .ok (out, masks)

/-- Embedding of `GraphASTEncoder.forward` (lines 39-50), instrumented: the GNN
propagation engine is an abstract parameter `gnnF`, the per-index
embedding table an abstract `embed`; the boolean records whether the
engine was invoked before the call returned.  In the source the engine
is invoked unconditionally between the adjacency construction and the
unpacking. -/
def forwardInstr {α : Type} (gnnF : List α → List AdjacencyList → List α)
    (embed : Nat → α) (zero : α) (vocab : Vocab) (grammar : Grammar)
    (asts : List Tree) : Bool × Except UnpackErr (List (List α) × List (List Nat)) :=
  match get_batched_adjacency_lists asts with
  | .error _ => (false, .error .broadcast)
  | .ok r =>
      let indices := get_batched_tree_init_encoding asts r.batch_graph_node2tree_node vocab grammar
      let tree_node_encoding := gnnF (indices.map embed) r.adj_lists
      (true, unpack_batch_encoding tree_node_encoding zero asts r.tree_node2batch_graph_node)

/-! ### Specification-side definitions

These follow the spec's words (first-encounter order, distinct endpoint
count, mapped-tree maximum) and are compared against the source
definitions above. -/

/-- The ordered endpoint sequence of one tree's parent/child edge list,
tagged with the tree index: for each edge first the parent, then the
child. -/
def edgeKeys (i : Nat) : List (Nat × Nat) → List K
  | [] => []
  | e :: es => (i, e.1) :: (i, e.2) :: edgeKeys i es

/-- The ordered endpoint sequence of a batch, trees in batch order,
starting at tree index `i`. -/
def endpointSeqFrom : Nat → List Tree → List K
  | _, [] => []
  | i, t :: ts => edgeKeys i t.adjacency_list ++ endpointSeqFrom (i + 1) ts

/-- The ordered endpoint sequence of a batch. -/
def endpointSeq (ts : List Tree) : List K :=
  endpointSeqFrom 0 ts

/-- Append `x` unless already present (first-occurrence deduplication
step). -/
def insertNew (acc : List K) (x : K) : List K :=
  if x ∈ acc then acc else acc ++ [x]

/-- The distinct keys of `seq` in first-occurrence order. -/
def buildKeys (seq : List K) : List K :=
  seq.foldl insertNew []

/-- The association list pairing each key of `ks` with its position,
positions starting at `i`. -/
def canonFrom (i : Nat) : List K → List (K × Nat)
  | [] => []
  | k :: ks => (k, i) :: canonFrom (i + 1) ks

/-- The association list pairing each key of `ks` with its position. -/
def canon (ks : List K) : List (K × Nat) :=
  canonFrom 0 ks

/-- Modelled from the spec: the mapping promised by §4.1 — each distinct
edge endpoint, in first-encounter order (trees in batch order, per-tree
edge list in given order, parent before child), is paired with the next
integer starting from 0, one counter for the whole batch. -/
def spec_first_encounter_map (asts : List Tree) : List (K × Nat) :=
  canon (buildKeys (endpointSeq asts))

/-- The number of distinct `(tree-index, local-id)` pairs appearing as
endpoints of parent/child edges across the batch. -/
def total_node_count (asts : List Tree) : Nat :=
  (endpointSeq asts).dedup.length

/-- Whether any tree of the batch has at least one adjacent-terminal
pair. -/
def hasChainPair (asts : List Tree) : Bool :=
  asts.any (fun t => !t.adjacent_terminal_nodes.isEmpty)

/-- Modelled from the spec: the claimed `max_tree_size` of §4.3 step 3 —
the maximum node count among trees at least one of whose nodes received
a combined id (a tree none of whose nodes is mapped contributes 0). -/
def specMaxTreeSize (trees : List Tree) (m : List (K × Nat)) : Nat :=
  (((trees.enum.filter (fun it => m.any (fun p => p.1.1 == it.1))).map
      (fun it => it.2.size)).foldl Nat.max 0)

/-- Equal-multiplicity reverse-pair symmetry between two edge lists. -/
def relPairSymm (a b : List (Nat × Nat)) : Prop :=
  ∀ u v : Nat, a.count (u, v) = b.count (v, u)

/-! ### Association-list and canonical-map lemmas -/

theorem alookup_append (m m' : List (K × Nat)) (k : K) :
    alookup (m ++ m') k =
      match alookup m k with
      | some v => some v
      | none => alookup m' k := by
  induction m with
  | nil => simp [alookup]
  | cons p rest ih =>
      by_cases h : p.1 = k <;> simp [alookup, h, ih]

theorem canonFrom_append (i : Nat) (a b : List K) :
    canonFrom i (a ++ b) = canonFrom i a ++ canonFrom (i + a.length) b := by
  induction a generalizing i with
  | nil => simp [canonFrom]
  | cons k ks ih =>
      simp only [List.cons_append, canonFrom, List.length_cons, List.append_eq]
      rw [ih (i + 1)]
      have : i + 1 + ks.length = i + (ks.length + 1) := by omega
      rw [this]

theorem length_canonFrom (i : Nat) (ks : List K) :
    (canonFrom i ks).length = ks.length := by
  induction ks generalizing i with
  | nil => rfl
  | cons k ks ih => simp [canonFrom, ih]

theorem alookup_canonFrom_none (i : Nat) (ks : List K) (k : K) :
    alookup (canonFrom i ks) k = none ↔ k ∉ ks := by
  induction ks generalizing i with
  | nil => simp [canonFrom, alookup]
  | cons x xs ih =>
      by_cases h : x = k
      · subst h
        simp [canonFrom, alookup]
      · simp [canonFrom, alookup, h, ih, Ne.symm h]

theorem mem_canonFrom (i : Nat) (ks : List K) (x : K) (c : Nat) :
    (x, c) ∈ canonFrom i ks ↔ ∃ d, ks.get? d = some x ∧ c = i + d := by
  induction ks generalizing i with
  | nil => simp [canonFrom]
  | cons y ys ih =>
      simp only [canonFrom, List.mem_cons, Prod.mk.injEq, ih]
      constructor
      · rintro (⟨hx, hc⟩ | ⟨d, hd, hc⟩)
        · exact ⟨0, by simp [hx.symm], by omega⟩
        · exact ⟨d + 1, by simpa using hd, by omega⟩
      · rintro ⟨d, hd, hc⟩
        cases d with
        | zero =>
            left
            refine ⟨?_, by omega⟩
            simpa using hd.symm
        | succ d =>
            right
            exact ⟨d, by simpa using hd, by omega⟩

theorem stepKey_canon (ks : List K) (k : K) :
    stepKey (canon ks) k = canon (insertNew ks k) := by
  by_cases h : k ∈ ks
  · have hl : alookup (canonFrom 0 ks) k ≠ none := by
      intro hnone
      exact (alookup_canonFrom_none 0 ks k).mp hnone h
    unfold stepKey setdefault insertNew canon
    cases hv : alookup (canonFrom 0 ks) k with
    | none => exact absurd hv hl
    | some v => simp [h]
  · have hl : alookup (canonFrom 0 ks) k = none := by
      rw [alookup_canonFrom_none]
      exact h
    unfold stepKey setdefault insertNew canon
    rw [hl]
    simp only [h, if_false]
    rw [canonFrom_append]
    simp [canonFrom, length_canonFrom]

theorem foldl_stepKey_canon (seq : List K) (ks : List K) :
    seq.foldl stepKey (canon ks) = canon (seq.foldl insertNew ks) := by
  induction seq generalizing ks with
  | nil => rfl
  | cons k seq ih =>
      simp only [List.foldl_cons, stepKey_canon, ih]

theorem mem_insertNew (ks : List K) (k x : K) :
    x ∈ insertNew ks k ↔ x ∈ ks ∨ x = k := by
  unfold insertNew
  by_cases h : k ∈ ks
  · simp only [h, if_true]
    constructor
    · exact Or.inl
    · rintro (hx | hx)
      · exact hx
      · exact hx ▸ h
  · simp [h]

theorem mem_foldl_insertNew (seq : List K) (ks : List K) (x : K) :
    x ∈ seq.foldl insertNew ks ↔ x ∈ ks ∨ x ∈ seq := by
  induction seq generalizing ks with
  | nil => simp
  | cons k seq ih =>
      simp only [List.foldl_cons, ih, mem_insertNew, List.mem_cons]
      tauto

theorem nodup_insertNew (ks : List K) (k : K) (h : ks.Nodup) :
    (insertNew ks k).Nodup := by
  unfold insertNew
  by_cases hk : k ∈ ks
  · simpa [hk]
  · simp only [hk, if_false]
    simpa [List.nodup_append, h] using hk

theorem nodup_foldl_insertNew (seq : List K) (ks : List K) (h : ks.Nodup) :
    (seq.foldl insertNew ks).Nodup := by
  induction seq generalizing ks with
  | nil => simpa
  | cons k seq ih =>
      exact ih _ (nodup_insertNew _ _ h)

theorem foldl_insertNew_split (seq : List K) (ks : List K) :
    ∃ l, seq.foldl insertNew ks = ks ++ l ∧ l.Sublist seq := by
  induction seq generalizing ks with
  | nil => exact ⟨[], by simp⟩
  | cons k seq ih =>
      by_cases hk : k ∈ ks
      · obtain ⟨l, hl, hsub⟩ := ih ks
        refine ⟨l, ?_, hsub.cons k⟩
        simpa [insertNew, hk] using hl
      · obtain ⟨l, hl, hsub⟩ := ih (ks ++ [k])
        refine ⟨k :: l, ?_, hsub.cons₂ k⟩
        simp only [List.foldl_cons, insertNew, hk, if_false]
        simpa using hl

theorem buildKeys_sublist (seq : List K) : (buildKeys seq).Sublist seq := by
  obtain ⟨l, hl, hsub⟩ := foldl_insertNew_split seq []
  unfold buildKeys
  rw [hl]
  simpa using hsub

theorem buildKeys_nodup (seq : List K) : (buildKeys seq).Nodup :=
  nodup_foldl_insertNew seq [] List.nodup_nil

theorem mem_buildKeys (seq : List K) (x : K) : x ∈ buildKeys seq ↔ x ∈ seq := by
  unfold buildKeys
  rw [mem_foldl_insertNew]
  simp

theorem buildKeys_length (seq : List K) :
    (buildKeys seq).length = seq.dedup.length := by
  refine List.Perm.length_eq ?_
  refine (List.perm_ext_iff_of_nodup (buildKeys_nodup seq) (List.nodup_dedup seq)).mpr ?_
  intro a
  rw [mem_buildKeys, List.mem_dedup]

theorem canonFrom_map_snd (i : Nat) (ks : List K) :
    (canonFrom i ks).map Prod.snd = List.range' i ks.length := by
  induction ks generalizing i with
  | nil => rfl
  | cons k ks ih => simp [canonFrom, ih, List.range'_succ]

/-! ### Evolution of the state through the loops -/

theorem processEdge_map (i : Nat) (st : AdjState) (e : Nat × Nat) :
    (processEdge i st e).tree_node2batch_graph_node =
      stepKey (stepKey st.tree_node2batch_graph_node (i, e.1)) (i, e.2) := rfl

theorem processEdge_tree_lists (i : Nat) (st : AdjState) (e : Nat × Nat) :
    ∃ s t : Nat,
      (processEdge i st e).ast_adj_list = st.ast_adj_list ++ [(s, t)] ∧
      (processEdge i st e).reversed_ast_adj_list = st.reversed_ast_adj_list ++ [(t, s)] :=
  ⟨_, _, rfl, rfl⟩

theorem processEdge_chain_lists (i : Nat) (st : AdjState) (e : Nat × Nat) :
    (processEdge i st e).terminal_nodes_adj_list = st.terminal_nodes_adj_list ∧
    (processEdge i st e).reversed_terminal_nodes_adj_list = st.reversed_terminal_nodes_adj_list :=
  ⟨rfl, rfl⟩

theorem processAdjEdges_map (i : Nat) (es : List (Nat × Nat)) (st : AdjState) :
    (processAdjEdges i es st).tree_node2batch_graph_node =
      (edgeKeys i es).foldl stepKey st.tree_node2batch_graph_node := by
  induction es generalizing st with
  | nil => rfl
  | cons e es ih =>
      simp only [processAdjEdges, List.foldl_cons, edgeKeys] at *
      rw [ih, processEdge_map]

theorem processAdjEdges_chain_lists (i : Nat) (es : List (Nat × Nat)) (st : AdjState) :
    (processAdjEdges i es st).terminal_nodes_adj_list = st.terminal_nodes_adj_list ∧
    (processAdjEdges i es st).reversed_terminal_nodes_adj_list =
      st.reversed_terminal_nodes_adj_list := by
  induction es generalizing st with
  | nil => exact ⟨rfl, rfl⟩
  | cons e es ih =>
      simp only [processAdjEdges, List.foldl_cons] at *
      exact ih (processEdge i st e)

theorem processAdjEdges_tree_sym (i : Nat) (es : List (Nat × Nat)) (st : AdjState)
    (h : st.reversed_ast_adj_list = st.ast_adj_list.map Prod.swap) :
    (processAdjEdges i es st).reversed_ast_adj_list =
      (processAdjEdges i es st).ast_adj_list.map Prod.swap := by
  induction es generalizing st with
  | nil => exact h
  | cons e es ih =>
      simp only [processAdjEdges, List.foldl_cons] at *
      refine ih (processEdge i st e) ?_
      obtain ⟨s, t, ha, hr⟩ := processEdge_tree_lists i st e
      rw [ha, hr, List.map_append, h]
      rfl

theorem processChainEdge_ok (i : Nat) (st st' : AdjState) (e : Nat × Nat)
    (h : processChainEdge i st e = .ok st') :
    ∃ a b : Nat,
      st' = { st with
                terminal_nodes_adj_list := st.terminal_nodes_adj_list ++ [(a, b)]
                reversed_terminal_nodes_adj_list :=
                  st.reversed_terminal_nodes_adj_list ++ [(b, a)] } := by
  unfold processChainEdge at h
  cases h1 : alookup st.tree_node2batch_graph_node (i, e.1) with
  | none => rw [h1] at h; cases h
  | some a =>
      cases h2 : alookup st.tree_node2batch_graph_node (i, e.2) with
      | none => rw [h1, h2] at h; cases h
      | some b =>
          rw [h1, h2] at h
          cases h
          exact ⟨a, b, rfl⟩

theorem processChain_ok (i : Nat) (ps : List (Nat × Nat)) (st st' : AdjState)
    (h : processChain i ps st = .ok st') :
    st'.tree_node2batch_graph_node = st.tree_node2batch_graph_node ∧
    st'.ast_adj_list = st.ast_adj_list ∧
    st'.reversed_ast_adj_list = st.reversed_ast_adj_list ∧
    st'.terminal_nodes_adj_list.length =
      st.terminal_nodes_adj_list.length + ps.length ∧
    (st.reversed_terminal_nodes_adj_list = st.terminal_nodes_adj_list.map Prod.swap →
      st'.reversed_terminal_nodes_adj_list = st'.terminal_nodes_adj_list.map Prod.swap) := by
  induction ps generalizing st with
  | nil =>
      cases h
      exact ⟨rfl, rfl, rfl, rfl, fun hs => hs⟩
  | cons e es ih =>
      unfold processChain at h
      cases he : processChainEdge i st e with
      | error err => rw [he] at h; cases h
      | ok st1 =>
          rw [he] at h
          obtain ⟨a, b, hst1⟩ := processChainEdge_ok i st st1 e he
          obtain ⟨h1, h2, h3, h4, h5⟩ := ih st1 h
          subst hst1
          simp only [List.length_append, List.length_cons, List.length_nil] at h4 ⊢
          refine ⟨h1, h2, h3, by omega, ?_⟩
          intro hs
          refine h5 ?_
          show st.reversed_terminal_nodes_adj_list ++ [(b, a)] =
            (st.terminal_nodes_adj_list ++ [(a, b)]).map Prod.swap
          rw [List.map_append, hs]
          rfl

/-- Total number of adjacent-terminal pairs of a batch. -/
def totalChain (ts : List Tree) : Nat :=
  (ts.map (fun t => t.adjacent_terminal_nodes.length)).sum

theorem runBatchFrom_map (i : Nat) (ts : List Tree) (st st' : AdjState)
    (h : runBatchFrom i ts st = .ok st') :
    st'.tree_node2batch_graph_node =
      (endpointSeqFrom i ts).foldl stepKey st.tree_node2batch_graph_node := by
  induction ts generalizing i st with
  | nil => cases h; rfl
  | cons t ts ih =>
      unfold runBatchFrom at h
      cases ht : processTree i t st with
      | error err => rw [ht] at h; cases h
      | ok st1 =>
          rw [ht] at h
          have hchain := processChain_ok i t.adjacent_terminal_nodes _ st1 ht
          have h1 : st1.tree_node2batch_graph_node =
              (edgeKeys i t.adjacency_list).foldl stepKey st.tree_node2batch_graph_node := by
            rw [hchain.1, processAdjEdges_map]
          rw [ih (i + 1) st1 h, h1]
          simp only [endpointSeqFrom, List.foldl_append]

theorem runBatchFrom_tree_sym (i : Nat) (ts : List Tree) (st st' : AdjState)
    (h : runBatchFrom i ts st = .ok st')
    (hsym : st.reversed_ast_adj_list = st.ast_adj_list.map Prod.swap) :
    st'.reversed_ast_adj_list = st'.ast_adj_list.map Prod.swap := by
  induction ts generalizing i st with
  | nil => cases h; exact hsym
  | cons t ts ih =>
      unfold runBatchFrom at h
      cases ht : processTree i t st with
      | error err => rw [ht] at h; cases h
      | ok st1 =>
          rw [ht] at h
          have hchain := processChain_ok i t.adjacent_terminal_nodes _ st1 ht
          refine ih (i + 1) st1 h ?_
          rw [hchain.2.2.1, hchain.2.1]
          exact processAdjEdges_tree_sym i t.adjacency_list st hsym

theorem runBatchFrom_chain_sym (i : Nat) (ts : List Tree) (st st' : AdjState)
    (h : runBatchFrom i ts st = .ok st')
    (hsym : st.reversed_terminal_nodes_adj_list =
      st.terminal_nodes_adj_list.map Prod.swap) :
    st'.reversed_terminal_nodes_adj_list =
      st'.terminal_nodes_adj_list.map Prod.swap := by
  induction ts generalizing i st with
  | nil => cases h; exact hsym
  | cons t ts ih =>
      unfold runBatchFrom at h
      cases ht : processTree i t st with
      | error err => rw [ht] at h; cases h
      | ok st1 =>
          rw [ht] at h
          have hchain := processChain_ok i t.adjacent_terminal_nodes _ st1 ht
          refine ih (i + 1) st1 h ?_
          refine hchain.2.2.2.2 ?_
          obtain ⟨ha, hb⟩ := processAdjEdges_chain_lists i t.adjacency_list st
          rw [ha, hb]
          exact hsym

theorem runBatchFrom_chain_len (i : Nat) (ts : List Tree) (st st' : AdjState)
    (h : runBatchFrom i ts st = .ok st') :
    st'.terminal_nodes_adj_list.length =
      st.terminal_nodes_adj_list.length + totalChain ts := by
  induction ts generalizing i st with
  | nil => cases h; simp [totalChain]
  | cons t ts ih =>
      unfold runBatchFrom at h
      cases ht : processTree i t st with
      | error err => rw [ht] at h; cases h
      | ok st1 =>
          rw [ht] at h
          have hchain := processChain_ok i t.adjacent_terminal_nodes _ st1 ht
          have hlen := hchain.2.2.2.1
          obtain ⟨ha, _⟩ := processAdjEdges_chain_lists i t.adjacency_list st
          rw [ha] at hlen
          have := ih (i + 1) st1 h
          rw [this, hlen]
          simp only [totalChain, List.map_cons, List.sum_cons]
          omega

theorem runBatch_map (asts : List Tree) (st : AdjState)
    (h : runBatch asts = .ok st) :
    st.tree_node2batch_graph_node = canon (buildKeys (endpointSeq asts)) := by
  have h1 := runBatchFrom_map 0 asts initState st h
  have h2 : (canon ([] : List K)) = ([] : List (K × Nat)) := rfl
  calc st.tree_node2batch_graph_node
      = (endpointSeqFrom 0 asts).foldl stepKey (canon []) := h1
    _ = canon ((endpointSeqFrom 0 asts).foldl insertNew []) :=
        foldl_stepKey_canon _ _
    _ = canon (buildKeys (endpointSeq asts)) := rfl

/-- Unpack the assembly at the end of `get_batched_adjacency_lists`:
relate the returned triple to the final loop state. -/
theorem get_ok (asts : List Tree) (r : BatchedAdj)
    (h : get_batched_adjacency_lists asts = .ok r) :
    ∃ st, runBatch asts = .ok st ∧
      r.tree_node2batch_graph_node = st.tree_node2batch_graph_node ∧
      r.batch_graph_node2tree_node =
        st.tree_node2batch_graph_node.map (fun p => (p.2, p.1)) ∧
      r.adj_lists =
        (if st.terminal_nodes_adj_list.isEmpty then
          [AdjacencyList.mk st.tree_node2batch_graph_node.length st.ast_adj_list,
           AdjacencyList.mk st.tree_node2batch_graph_node.length st.reversed_ast_adj_list]
        else
          [AdjacencyList.mk st.tree_node2batch_graph_node.length st.ast_adj_list,
           AdjacencyList.mk st.tree_node2batch_graph_node.length st.reversed_ast_adj_list,
           AdjacencyList.mk st.tree_node2batch_graph_node.length st.terminal_nodes_adj_list,
           AdjacencyList.mk st.tree_node2batch_graph_node.length
             st.reversed_terminal_nodes_adj_list]) := by
  unfold get_batched_adjacency_lists at h
  cases hr : runBatch asts with
  | error err => rw [hr] at h; cases h
  | ok st =>
      rw [hr] at h
      refine ⟨st, rfl, ?_⟩
      by_cases hc : st.terminal_nodes_adj_list.isEmpty
      · simp only [hc, if_true] at h ⊢
        cases h
        exact ⟨rfl, rfl, rfl⟩
      · simp only [hc, if_false, Bool.false_eq_true] at h ⊢
        cases h
        exact ⟨rfl, rfl, rfl⟩

theorem mem_canon (ks : List K) (x : K) (c : Nat) :
    (x, c) ∈ canon ks ↔ ks.get? c = some x := by
  rw [canon, mem_canonFrom]
  constructor
  · rintro ⟨d, hd, hc⟩
    have : c = d := by omega
    rwa [this]
  · intro h
    exact ⟨c, h, by omega⟩

/-- The mapping returned by a successful `get_batched_adjacency_lists`
is the canonical first-encounter map of the batch's endpoint sequence. -/
theorem get_map_canonical (asts : List Tree) (r : BatchedAdj)
    (h : get_batched_adjacency_lists asts = .ok r) :
    r.tree_node2batch_graph_node = canon (buildKeys (endpointSeq asts)) := by
  obtain ⟨st, hrun, hmap, -, -⟩ := get_ok asts r h
  rw [hmap]
  exact runBatch_map asts st hrun

theorem edgeKeys_fst (i : Nat) (es : List (Nat × Nat)) :
    ∀ x ∈ edgeKeys i es, x.1 = i := by
  induction es with
  | nil => intro x hx; cases hx
  | cons e es ih =>
      intro x hx
      rw [edgeKeys] at hx
      rcases List.mem_cons.mp hx with h | hx
      · rw [h]
      rcases List.mem_cons.mp hx with h | hx
      · rw [h]
      · exact ih x hx

theorem endpointSeqFrom_fst_ge (i : Nat) (ts : List Tree) :
    ∀ x ∈ endpointSeqFrom i ts, i ≤ x.1 := by
  induction ts generalizing i with
  | nil => intro x hx; cases hx
  | cons t ts ih =>
      intro x hx
      rcases List.mem_append.mp hx with hx | hx
      · exact (edgeKeys_fst i t.adjacency_list x hx).ge
      · exact Nat.le_of_succ_le (ih (i + 1) x hx)

theorem pairwise_of_fst_eq (i : Nat) (l : List K) (h : ∀ x ∈ l, x.1 = i) :
    l.Pairwise (fun a b : K => a.1 ≤ b.1) := by
  induction l with
  | nil => exact List.Pairwise.nil
  | cons x xs ih =>
      refine List.Pairwise.cons ?_ (ih fun y hy => h y (List.mem_cons_of_mem x hy))
      intro y hy
      rw [h x (List.mem_cons_self x xs), h y (List.mem_cons_of_mem x hy)]

theorem endpointSeqFrom_pairwise (i : Nat) (ts : List Tree) :
    (endpointSeqFrom i ts).Pairwise (fun a b : K => a.1 ≤ b.1) := by
  induction ts generalizing i with
  | nil => exact List.Pairwise.nil
  | cons t ts ih =>
      rw [endpointSeqFrom, List.pairwise_append]
      refine ⟨pairwise_of_fst_eq i _ (edgeKeys_fst i t.adjacency_list), ih (i + 1), ?_⟩
      intro a ha b hb
      have h1 := edgeKeys_fst i t.adjacency_list a ha
      have h2 := endpointSeqFrom_fst_ge (i + 1) ts b hb
      omega

theorem get_tag_mono (ks : List K)
    (hpw : ks.Pairwise (fun a b : K => a.1 ≤ b.1)) (c1 c2 : Nat) (x1 x2 : K)
    (h1 : ks.get? c1 = some x1) (h2 : ks.get? c2 = some x2) (hlt : c1 < c2) :
    x1.1 ≤ x2.1 := by
  obtain ⟨hc1, hg1⟩ := List.get?_eq_some.mp h1
  obtain ⟨hc2, hg2⟩ := List.get?_eq_some.mp h2
  have := List.pairwise_iff_get.mp hpw ⟨c1, hc1⟩ ⟨c2, hc2⟩ hlt
  rwa [hg1, hg2] at this

/-- C1: for every batch, the (tree-index, local-id) → combined-id mapping
produced by `get_batched_adjacency_lists` is well defined and injective,
and its image is exactly the interval `[0, total_node_count)`, where
`total_node_count` is the number of distinct (tree-index, local-id)
pairs appearing as endpoints of parent/child edges across the batch. -/
theorem C1_bijection (asts : List Tree) (r : BatchedAdj)
    (h : get_batched_adjacency_lists asts = .ok r) :
    (∀ k v v', (k, v) ∈ r.tree_node2batch_graph_node →
      (k, v') ∈ r.tree_node2batch_graph_node → v = v') ∧
    (∀ k k' v, (k, v) ∈ r.tree_node2batch_graph_node →
      (k', v) ∈ r.tree_node2batch_graph_node → k = k') ∧
    (∀ v, (∃ k, (k, v) ∈ r.tree_node2batch_graph_node) ↔
      v < total_node_count asts) := by
  have hm := get_map_canonical asts r h
  set bk := buildKeys (endpointSeq asts) with hbk
  have hnd : bk.Nodup := buildKeys_nodup _
  have hlen : bk.length = total_node_count asts := buildKeys_length _
  refine ⟨?_, ?_, ?_⟩
  · intro k v v' hv hv'
    rw [hm, mem_canon] at hv hv'
    obtain ⟨hb, hg⟩ := List.get?_eq_some.mp hv
    obtain ⟨hb', hg'⟩ := List.get?_eq_some.mp hv'
    have : bk.get ⟨v, hb⟩ = bk.get ⟨v', hb'⟩ := by rw [hg, hg']
    have := (List.Nodup.get_inj_iff hnd).mp this
    exact congrArg Fin.val this
  · intro k k' v hv hv'
    rw [hm, mem_canon] at hv hv'
    rw [hv] at hv'
    exact Option.some_injective _ hv'
  · intro v
    constructor
    · rintro ⟨k, hk⟩
      rw [hm, mem_canon] at hk
      obtain ⟨hb, -⟩ := List.get?_eq_some.mp hk
      omega
    · intro hv
      rw [← hlen] at hv
      cases hg : bk.get? v with
      | none => exact absurd (List.get?_eq_none.mp hg) (by omega)
      | some k => exact ⟨k, by rw [hm, mem_canon]; exact hg⟩

/-- C1 witness batch: two trees, the first with edges (0,1), (0,2) and one
adjacent-terminal pair (1,2), the second with a single edge (5,7). -/
def wTree0 : Tree := ⟨[(0, 1), (0, 2)], [(1, 2)], 3, fun _ => ⟨true, 0, 0⟩⟩

/-- Second witness tree. -/
def wTree1 : Tree := ⟨[(5, 7)], [], 2, fun _ => ⟨true, 0, 0⟩⟩

/-- Witness batch. -/
def wBatch : List Tree := [wTree0, wTree1]

/-- The value `get_batched_adjacency_lists` returns on `wBatch`. -/
def wResult : BatchedAdj :=
  ⟨[⟨5, [(0, 1), (0, 2), (3, 4)]⟩, ⟨5, [(1, 0), (2, 0), (4, 3)]⟩,
    ⟨5, [(1, 2)]⟩, ⟨5, [(2, 1)]⟩],
   [((0, 0), 0), ((0, 1), 1), ((0, 2), 2), ((1, 5), 3), ((1, 7), 4)],
   [(0, (0, 0)), (1, (0, 1)), (2, (0, 2)), (3, (1, 5)), (4, (1, 7))]⟩

/-- C1 witness: the bijection property instantiated on the concrete batch
`wBatch`. -/
theorem C1_bijection_witness :
    (∀ k v v', (k, v) ∈ wResult.tree_node2batch_graph_node →
      (k, v') ∈ wResult.tree_node2batch_graph_node → v = v') ∧
    (∀ k k' v, (k, v) ∈ wResult.tree_node2batch_graph_node →
      (k', v) ∈ wResult.tree_node2batch_graph_node → k = k') ∧
    (∀ v, (∃ k, (k, v) ∈ wResult.tree_node2batch_graph_node) ↔
      v < total_node_count wBatch) :=
  C1_bijection wBatch wResult (by decide)

/-- C2: combined ids are assigned in strict first-encounter order —
iterating trees in batch order and each tree's parent/child edge list in
given order, each endpoint not yet present receives the next integer of
one batch-wide counter starting at 0: the mapping equals the canonical
first-encounter map, and its value sequence is `0, 1, ..., n-1` in
insertion order. -/
theorem C2_first_encounter_order (asts : List Tree) (r : BatchedAdj)
    (h : get_batched_adjacency_lists asts = .ok r) :
    r.tree_node2batch_graph_node = spec_first_encounter_map asts ∧
    r.tree_node2batch_graph_node.map Prod.snd =
      List.range r.tree_node2batch_graph_node.length := by
  have hm := get_map_canonical asts r h
  refine ⟨hm, ?_⟩
  rw [hm]
  show (canonFrom 0 (buildKeys (endpointSeq asts))).map Prod.snd = _
  rw [canonFrom_map_snd, canon, length_canonFrom, List.range_eq_range']

/-- C2 witness: the first-encounter characterization on `wBatch`. -/
theorem C2_first_encounter_order_witness :
    wResult.tree_node2batch_graph_node = spec_first_encounter_map wBatch ∧
    wResult.tree_node2batch_graph_node.map Prod.snd =
      List.range wResult.tree_node2batch_graph_node.length :=
  C2_first_encounter_order wBatch wResult (by decide)

/-- C10: the combined ids of each tree form a contiguous interval, and
the intervals occur in batch order — every id of tree `i` is strictly
below every id of tree `j` for `i < j`, and any id lying between two ids
of tree `i` itself belongs to tree `i`. -/
theorem C10_contiguous_intervals (asts : List Tree) (r : BatchedAdj)
    (h : get_batched_adjacency_lists asts = .ok r) :
    (∀ i j ki kj ci cj, ((i, ki), ci) ∈ r.tree_node2batch_graph_node →
      ((j, kj), cj) ∈ r.tree_node2batch_graph_node → i < j → ci < cj) ∧
    (∀ i k1 k2 c1 c2 j k c, ((i, k1), c1) ∈ r.tree_node2batch_graph_node →
      ((i, k2), c2) ∈ r.tree_node2batch_graph_node →
      ((j, k), c) ∈ r.tree_node2batch_graph_node →
      c1 ≤ c → c ≤ c2 → j = i) := by
  have hm := get_map_canonical asts r h
  set bk := buildKeys (endpointSeq asts) with hbk
  have hpw : bk.Pairwise (fun a b : K => a.1 ≤ b.1) :=
    List.Pairwise.sublist (buildKeys_sublist _) (endpointSeqFrom_pairwise 0 asts)
  constructor
  · intro i j ki kj ci cj hi hj hij
    rw [hm, mem_canon] at hi hj
    by_contra hle
    have hle : cj ≤ ci := by omega
    rcases Nat.lt_or_ge cj ci with hlt | hge
    · have := get_tag_mono bk hpw cj ci _ _ hj hi hlt
      simp at this
      omega
    · have : ci = cj := by omega
      rw [this, hj] at hi
      have := Option.some_injective _ hi
      simp at this
      omega
  · intro i k1 k2 c1 c2 j k c h1 h2 hc hle1 hle2
    rw [hm, mem_canon] at h1 h2 hc
    have hji : j ≤ i := by
      rcases Nat.lt_or_ge c c2 with hlt | hge
      · have := get_tag_mono bk hpw c c2 _ _ hc h2 hlt
        simpa using this
      · have : c = c2 := by omega
        rw [this, h2] at hc
        have := Option.some_injective _ hc
        simp at this
        omega
    have hij : i ≤ j := by
      rcases Nat.lt_or_ge c1 c with hlt | hge
      · have := get_tag_mono bk hpw c1 c _ _ h1 hc hlt
        simpa using this
      · have : c1 = c := by omega
        rw [this, hc] at h1
        have := Option.some_injective _ h1
        simp at this
        omega
    omega

theorem count_map_swap (l : List (Nat × Nat)) (u v : Nat) :
    (l.map Prod.swap).count (v, u) = l.count (u, v) := by
  induction l with
  | nil => rfl
  | cons p l ih =>
      rcases p with ⟨a, b⟩
      simp only [List.map_cons, Prod.swap_prod_mk, List.count_cons, ih, beq_iff_eq,
        Prod.mk.injEq]
      congr 1
      exact if_congr and_comm rfl rfl

/-- The forward/reverse symmetry of the final loop state. -/
theorem runBatch_sym (asts : List Tree) (st : AdjState)
    (h : runBatch asts = .ok st) :
    st.reversed_ast_adj_list = st.ast_adj_list.map Prod.swap ∧
    st.reversed_terminal_nodes_adj_list =
      st.terminal_nodes_adj_list.map Prod.swap :=
  ⟨runBatchFrom_tree_sym 0 asts initState st h rfl,
   runBatchFrom_chain_sym 0 asts initState st h rfl⟩

/-- C3: in every successful batch, the reversed tree relation contains
(v, u) with the same multiplicity as the forward tree relation contains
(u, v), and the same holds for the chain relations (positions 2 and 3 of
the relation list when present). -/
theorem C3_reverse_pair_symmetry (asts : List Tree) (r : BatchedAdj)
    (h : get_batched_adjacency_lists asts = .ok r) :
    (∀ a0 a1, r.adj_lists.get? 0 = some a0 → r.adj_lists.get? 1 = some a1 →
      relPairSymm a0.adj_list a1.adj_list) ∧
    (∀ a2 a3, r.adj_lists.get? 2 = some a2 → r.adj_lists.get? 3 = some a3 →
      relPairSymm a2.adj_list a3.adj_list) := by
  obtain ⟨st, hrun, -, -, hadj⟩ := get_ok asts r h
  obtain ⟨hsymT, hsymC⟩ := runBatch_sym asts st hrun
  by_cases hc : st.terminal_nodes_adj_list.isEmpty
  · rw [hc] at hadj
    simp only [if_true] at hadj
    constructor
    · intro a0 a1 h0 h1
      rw [hadj] at h0 h1
      simp only [List.get?] at h0 h1
      cases h0; cases h1
      intro u v
      rw [hsymT]
      exact (count_map_swap _ u v).symm
    · intro a2 a3 h2 h3
      rw [hadj] at h2
      simp only [List.get?] at h2
      cases h2
  · simp only [hc, Bool.false_eq_true, if_false] at hadj
    constructor
    · intro a0 a1 h0 h1
      rw [hadj] at h0 h1
      simp only [List.get?] at h0 h1
      cases h0; cases h1
      intro u v
      rw [hsymT]
      exact (count_map_swap _ u v).symm
    · intro a2 a3 h2 h3
      rw [hadj] at h2 h3
      simp only [List.get?] at h2 h3
      cases h2; cases h3
      intro u v
      rw [hsymC]
      exact (count_map_swap _ u v).symm

/-- C3 witness: reverse-pair symmetry on `wBatch`. -/
theorem C3_reverse_pair_symmetry_witness :
    (∀ a0 a1, wResult.adj_lists.get? 0 = some a0 → wResult.adj_lists.get? 1 = some a1 →
      relPairSymm a0.adj_list a1.adj_list) ∧
    (∀ a2 a3, wResult.adj_lists.get? 2 = some a2 → wResult.adj_lists.get? 3 = some a3 →
      relPairSymm a2.adj_list a3.adj_list) :=
  C3_reverse_pair_symmetry wBatch wResult (by decide)

theorem totalChain_eq_zero (ts : List Tree) :
    totalChain ts = 0 ↔ ∀ t ∈ ts, t.adjacent_terminal_nodes = [] := by
  induction ts with
  | nil => simp [totalChain]
  | cons t ts ih =>
      show t.adjacent_terminal_nodes.length + totalChain ts = 0 ↔ _
      rw [Nat.add_eq_zero]
      simp only [List.length_eq_zero, ih, List.mem_cons]
      constructor
      · rintro ⟨h1, h2⟩ x (hx | hx)
        · rwa [hx]
        · exact h2 x hx
      · intro hx
        exact ⟨hx t (Or.inl rfl), fun x hmem => hx x (Or.inr hmem)⟩

theorem hasChainPair_eq_false (ts : List Tree) :
    hasChainPair ts = false ↔ ∀ t ∈ ts, t.adjacent_terminal_nodes = [] := by
  simp [hasChainPair, List.any_eq_false, List.isEmpty_iff]

/-- C4: a successful batch yields exactly two relations when no tree of
the batch has an adjacent-terminal pair, and exactly four relations when
at least one tree has one — a batch-wide decision. -/
theorem C4_conditional_chain_inclusion (asts : List Tree) (r : BatchedAdj)
    (h : get_batched_adjacency_lists asts = .ok r) :
    (hasChainPair asts = false → r.adj_lists.length = 2) ∧
    (hasChainPair asts = true → r.adj_lists.length = 4) := by
  obtain ⟨st, hrun, -, -, hadj⟩ := get_ok asts r h
  have hlen : st.terminal_nodes_adj_list.length = totalChain asts := by
    have := runBatchFrom_chain_len 0 asts initState st hrun
    simpa [initState] using this
  constructor
  · intro hfalse
    have hzero : totalChain asts = 0 :=
      (totalChain_eq_zero asts).mpr ((hasChainPair_eq_false asts).mp hfalse)
    have hempty : st.terminal_nodes_adj_list.isEmpty = true := by
      rw [List.isEmpty_iff, ← List.length_eq_zero, hlen]
      exact hzero
    rw [hadj, hempty]
    rfl
  · intro htrue
    have hnonzero : totalChain asts ≠ 0 := by
      intro hzero
      have := (hasChainPair_eq_false asts).mpr ((totalChain_eq_zero asts).mp hzero)
      rw [htrue] at this
      cases this
    have hempty : st.terminal_nodes_adj_list.isEmpty = false := by
      rcases he : st.terminal_nodes_adj_list.isEmpty with _ | _
      · rfl
      · exfalso
        apply hnonzero
        rw [← hlen, List.length_eq_zero]
        exact List.isEmpty_iff.mp he
    rw [hadj, hempty]
    rfl

/-- C4 witness: four relations on `wBatch`, whose first tree has an
adjacent-terminal pair. -/
theorem C4_conditional_chain_inclusion_witness :
    (hasChainPair wBatch = false → wResult.adj_lists.length = 2) ∧
    (hasChainPair wBatch = true → wResult.adj_lists.length = 4) :=
  C4_conditional_chain_inclusion wBatch wResult (by decide)

/-- C5: the initial feature index of each combined id is the vocabulary
index of the node's identifier for terminal nodes, and the grammar index
of its syntax category offset by the vocabulary size for non-terminal
nodes; assuming every vocabulary index is below the vocabulary size, the
two kinds of indices lie in disjoint numeric ranges. -/
theorem C5_init_feature_index (asts : List Tree) (invMap : List (Nat × K))
    (vocab : Vocab) (grammar : Grammar)
    (hv : ∀ x, vocab.source x < vocab.source_size)
    (i bid tid nid : Nat)
    (h : invMap.get? i = some (bid, (tid, nid))) :
    ∃ idx,
      (get_batched_tree_init_encoding asts invMap vocab grammar).get? i = some idx ∧
      (((asts.getD tid default).id_to_node nid).is_variable_node = true →
        idx = vocab.source ((asts.getD tid default).id_to_node nid).var_id ∧
        idx < vocab.source_size) ∧
      (((asts.getD tid default).id_to_node nid).is_variable_node = false →
        idx = grammar.syntax_type_to_id ((asts.getD tid default).id_to_node nid).node_type
          + vocab.source_size ∧
        vocab.source_size ≤ idx) := by
  have hget : (get_batched_tree_init_encoding asts invMap vocab grammar).get? i =
      some (if ((asts.getD tid default).id_to_node nid).is_variable_node
        then vocab.source ((asts.getD tid default).id_to_node nid).var_id
        else grammar.syntax_type_to_id ((asts.getD tid default).id_to_node nid).node_type
          + vocab.source_size) := by
    unfold get_batched_tree_init_encoding
    rw [List.get?_map, h]
    rfl
  cases hn : ((asts.getD tid default).id_to_node nid).is_variable_node
  case false =>
    rw [hn] at hget
    refine ⟨grammar.syntax_type_to_id ((asts.getD tid default).id_to_node nid).node_type
      + vocab.source_size, ?_, ?_, ?_⟩
    · rw [hget]
      simp
    · intro htrue
      exact Bool.noConfusion htrue
    · intro _
      exact ⟨rfl, Nat.le_add_left _ _⟩
  case true =>
    rw [hn] at hget
    refine ⟨vocab.source ((asts.getD tid default).id_to_node nid).var_id, ?_, ?_, ?_⟩
    · rw [hget]
      simp
    · intro _
      exact ⟨rfl, hv _⟩
    · intro hfalse
      exact Bool.noConfusion hfalse

/-- C5 witness vocabulary: identifier tokens map to their residue mod 3,
size 3. -/
def wVocab : Vocab := ⟨fun x => x % 3, 3⟩

/-- C5 witness grammar. -/
def wGrammar : Grammar := ⟨fun x => x + 1⟩

/-- C5 witness tree: node 0 non-terminal of category 2, node 1 terminal
with identifier 7. -/
def wTreeC5 : Tree :=
  ⟨[(0, 1)], [], 2, fun n => if n = 0 then ⟨false, 0, 2⟩ else ⟨true, 7, 0⟩⟩

/-- C5 witness: the feature index of combined id 1 of the concrete batch
`[wTreeC5]`. -/
theorem C5_init_feature_index_witness :
    ∃ idx,
      (get_batched_tree_init_encoding [wTreeC5] [(0, (0, 0)), (1, (0, 1))]
        wVocab wGrammar).get? 1 = some idx ∧
      ((([wTreeC5].getD 0 default).id_to_node 1).is_variable_node = true →
        idx = wVocab.source (([wTreeC5].getD 0 default).id_to_node 1).var_id ∧
        idx < wVocab.source_size) ∧
      ((([wTreeC5].getD 0 default).id_to_node 1).is_variable_node = false →
        idx = wGrammar.syntax_type_to_id (([wTreeC5].getD 0 default).id_to_node 1).node_type
          + wVocab.source_size ∧
        wVocab.source_size ≤ idx) :=
  C5_init_feature_index [wTreeC5] [(0, (0, 0)), (1, (0, 1))] wVocab wGrammar
    (fun x => Nat.mod_lt x (by decide)) 1 1 0 1 (by decide)

/-- C8: encoding the same batch twice with the same vocabulary and
grammar yields the identical mapping, identical relation list, identical
inverse mapping, and identical initial feature-index sequence. -/
theorem C8_determinism (asts asts' : List Tree) (vocab : Vocab) (grammar : Grammar)
    (h : asts = asts') :
    get_batched_adjacency_lists asts = get_batched_adjacency_lists asts' ∧
    ∀ inv, get_batched_tree_init_encoding asts inv vocab grammar =
      get_batched_tree_init_encoding asts' inv vocab grammar := by
  subst h
  exact ⟨rfl, fun _ => rfl⟩

/-- C8 witness: two-run determinism on the concrete batch `wBatch`. -/
theorem C8_determinism_witness :
    get_batched_adjacency_lists wBatch = get_batched_adjacency_lists wBatch ∧
    ∀ inv, get_batched_tree_init_encoding wBatch inv wVocab wGrammar =
      get_batched_tree_init_encoding wBatch inv wVocab wGrammar :=
  C8_determinism wBatch wBatch wVocab wGrammar rfl

/-- C9 (amended): an empty batch is not rejected before the propagation
engine runs — for every engine, embedding table, vocabulary and grammar,
the pipeline reaches the engine invocation (instrumentation flag `true`)
and only afterwards fails, with the error of `max()` over the empty size
sequence inside `unpack_batch_encoding`. -/
theorem C9_empty_batch_after_engine {α : Type}
    (gnnF : List α → List AdjacencyList → List α) (embed : Nat → α) (zero : α)
    (vocab : Vocab) (grammar : Grammar) :
    forwardInstr gnnF embed zero vocab grammar [] = (true, .error .emptyMax) := rfl

/-- C9 counterexample: a concrete run on the empty batch in which the
propagation engine is invoked (flag `true`) before the failure — the
engine is not "never called", and no rejection happens before it. -/
theorem C9_counterexample :
    forwardInstr (fun _ _ => ([] : List Int)) (fun _ => (0 : Int)) 0
      ⟨fun _ => 0, 0⟩ ⟨fun _ => 0⟩ [] = (true, .error .emptyMax) := rfl

/-! ### Lemmas about `unpack_batch_encoding` -/

theorem length_insertSorted (x : Nat × Nat) (l : List (Nat × Nat)) :
    (insertSorted x l).length = l.length + 1 := by
  induction l with
  | nil => rfl
  | cons y ys ih =>
      unfold insertSorted
      by_cases h : x.1 ≤ y.1 <;> simp [h, ih]

theorem length_sortByFst (l : List (Nat × Nat)) :
    (sortByFst l).length = l.length := by
  induction l with
  | nil => rfl
  | cons y ys ih =>
      show (insertSorted y (sortByFst ys)).length = ys.length + 1
      rw [length_insertSorted, ih]

theorem indexRow_ok (m : List (K × Nat)) (e maxN : Nat) (row : List Nat × List Nat)
    (h : indexRow m e maxN = .ok row) :
    row.1.length = maxN ∧ row.2.length = maxN := by
  unfold indexRow at h
  by_cases hle : (treeRowIds m e).length ≤ maxN
  · rw [if_pos hle] at h
    cases h
    constructor <;> simp only [List.length_append, List.length_replicate] <;> omega
  · rw [if_neg hle] at h
    cases h

theorem mapMExcept_ok_forall {ε β : Type} (f : Nat → Except ε β) (xs : List Nat)
    (ys : List β) (h : mapMExcept f xs = .ok ys) :
    ∀ y ∈ ys, ∃ x ∈ xs, f x = .ok y := by
  induction xs generalizing ys with
  | nil =>
      cases h
      intro y hy
      cases hy
  | cons x xs ih =>
      unfold mapMExcept at h
      cases hf : f x with
      | error err => rw [hf] at h; cases h
      | ok y0 =>
          rw [hf] at h
          cases hm : mapMExcept f xs with
          | error err => rw [hm] at h; cases h
          | ok ys0 =>
              rw [hm] at h
              cases h
              intro y hy
              rcases List.mem_cons.mp hy with hy | hy
              · exact ⟨x, List.mem_cons_self x xs, hy ▸ hf⟩
              · obtain ⟨x', hx', hfx'⟩ := ih ys0 hm y hy
                exact ⟨x', List.mem_cons_of_mem x hx', hfx'⟩

theorem mem_zipWith {A B C : Type} (f : A → B → C) (as : List A) (bs : List B)
    (c : C) (h : c ∈ List.zipWith f as bs) : ∃ a ∈ as, ∃ b ∈ bs, c = f a b := by
  induction as generalizing bs with
  | nil => cases h
  | cons a as ih =>
      cases bs with
      | nil => cases h
      | cons b bs =>
          rcases List.mem_cons.mp h with hc | hc
          · exact ⟨a, List.mem_cons_self a as, b, List.mem_cons_self b bs, hc⟩
          · obtain ⟨a', ha', b', hb', hc'⟩ := ih bs hc
            exact ⟨a', List.mem_cons_of_mem a ha', b', List.mem_cons_of_mem b hb', hc'⟩

theorem zipWith_rows_getD {α : Type} (zero : α) (gs : List (List α))
    (ms : List (List Nat)) (hlen : gs.length = ms.length) (e : Nat) :
    (List.zipWith (fun encRow maskRow =>
        List.zipWith (fun v mk => if mk == 0 then zero else v) encRow maskRow)
      gs ms).getD e [] =
    List.zipWith (fun v mk => if mk == 0 then zero else v)
      (gs.getD e []) (ms.getD e []) := by
  induction gs generalizing ms e with
  | nil =>
      cases ms with
      | nil => simp
      | cons m ms => cases hlen
  | cons g gs ih =>
      cases ms with
      | nil => cases hlen
      | cons m ms =>
          cases e with
          | zero => simp
          | succ e =>
              simp only [List.zipWith_cons_cons, List.getD_cons_succ]
              exact ih ms (by simpa using hlen) e

theorem row_masked {α : Type} (zero : α) (encRow : List α) (maskRow : List Nat)
    (j : Nat) (h : maskRow.getD j 1 = 0) :
    (List.zipWith (fun v mk => if mk == 0 then zero else v) encRow maskRow).getD
      j zero = zero := by
  induction encRow generalizing maskRow j with
  | nil => simp
  | cons v vs ih =>
      cases maskRow with
      | nil => simp [List.getD] at h
      | cons mk mks =>
          cases j with
          | zero =>
              simp only [List.getD_cons_zero] at h
              simp [h]
          | succ j =>
              simp only [List.getD_cons_succ] at h
              simp only [List.zipWith_cons_cons, List.getD_cons_succ]
              exact ih mks j h

/-- C7: every output position of `unpack_batch_encoding` whose mask entry
is 0 holds the zero element, whatever the gather put there. -/
theorem C7_zero_padding {α : Type} (flat : List α) (zero : α) (trees : List Tree)
    (m : List (K × Nat)) (out : List (List α)) (masks : List (List Nat))
    (h : unpack_batch_encoding flat zero trees m = .ok (out, masks)) :
    ∀ e j, (masks.getD e []).getD j 1 = 0 → (out.getD e []).getD j zero = zero := by
  unfold unpack_batch_encoding at h
  by_cases hemp : trees.isEmpty
  · rw [if_pos hemp] at h
    cases h
  · rw [if_neg hemp] at h
    cases hmap : mapMExcept (fun e => indexRow m e (max_node_num trees))
        (List.range trees.length) with
    | error err => rw [hmap] at h; cases h
    | ok rows =>
        rw [hmap] at h
        cases h
        intro e j hm
        have hlen : ((rows.map Prod.fst).map
            (fun row => row.map (fun i => flat.getD i zero))).length =
            (rows.map Prod.snd).length := by
          simp
        rw [zipWith_rows_getD zero _ _ hlen e]
        exact row_masked zero _ _ j hm

/-- C6 (amended): the second dimension of both output tensors of
`unpack_batch_encoding` equals `max_node_num`, the maximum of `tree.size`
over ALL trees of the batch — including trees none of whose nodes ever
received a combined id. -/
theorem C6_amended_max_tree_size {α : Type} (flat : List α) (zero : α)
    (trees : List Tree) (m : List (K × Nat)) (out : List (List α))
    (masks : List (List Nat))
    (h : unpack_batch_encoding flat zero trees m = .ok (out, masks)) :
    (∀ row ∈ masks, row.length = max_node_num trees) ∧
    (∀ row ∈ out, row.length = max_node_num trees) := by
  unfold unpack_batch_encoding at h
  by_cases hemp : trees.isEmpty
  · rw [if_pos hemp] at h
    cases h
  · rw [if_neg hemp] at h
    cases hmap : mapMExcept (fun e => indexRow m e (max_node_num trees))
        (List.range trees.length) with
    | error err => rw [hmap] at h; cases h
    | ok rows =>
        rw [hmap] at h
        cases h
        have hrow : ∀ pr ∈ rows, pr.1.length = max_node_num trees ∧
            pr.2.length = max_node_num trees := by
          intro pr hpr
          obtain ⟨e, -, hfe⟩ :=
            mapMExcept_ok_forall _ (List.range trees.length) rows hmap pr hpr
          exact indexRow_ok m e (max_node_num trees) pr hfe
        constructor
        · intro row hrow2
          obtain ⟨pr, hpr, heq⟩ := List.mem_map.mp hrow2
          rw [← heq]
          exact (hrow pr hpr).2
        · intro row hrow2
          obtain ⟨g, hg, b, hb, heq⟩ := mem_zipWith _ _ _ row hrow2
          obtain ⟨idxRow, hidx, hgeq⟩ := List.mem_map.mp hg
          obtain ⟨pr1, hpr1, hidxeq⟩ := List.mem_map.mp hidx
          obtain ⟨pr2, hpr2, hbeq⟩ := List.mem_map.mp hb
          have h1 : g.length = max_node_num trees := by
            rw [← hgeq, List.length_map, ← hidxeq]
            exact (hrow pr1 hpr1).1
          have h2 : b.length = max_node_num trees := by
            rw [← hbeq]
            exact (hrow pr2 hpr2).2
          rw [heq, List.length_zipWith, h1, h2]
          exact Nat.min_self _

/-- C6 counterexample batch: a mapped two-node tree and an edgeless
nine-node tree. -/
def cTree0 : Tree := ⟨[(0, 1)], [], 2, fun _ => ⟨true, 0, 0⟩⟩

/-- The edgeless nine-node tree: none of its nodes is ever mapped. -/
def cTreeBig : Tree := ⟨[], [], 9, fun _ => ⟨true, 0, 0⟩⟩

/-- C6 counterexample batch. -/
def cBatch : List Tree := [cTree0, cTreeBig]

/-- The value `get_batched_adjacency_lists` returns on `cBatch`. -/
def cResult : BatchedAdj :=
  ⟨[⟨2, [(0, 1)]⟩, ⟨2, [(1, 0)]⟩],
   [((0, 0), 0), ((0, 1), 1)],
   [(0, (0, 0)), (1, (0, 1))]⟩

/-- C6 counterexample: on `cBatch` the produced rows have width 9 = the
maximum `tree.size` over ALL trees (the unmapped nine-node tree
included), while the claim's `max_tree_size` — the maximum node count
among trees whose nodes actually received combined ids, unmapped trees
contributing 0 — is 2.  The code's second dimension is 9, not 2. -/
theorem C6_counterexample :
    get_batched_adjacency_lists cBatch = .ok cResult ∧
    unpack_batch_encoding ([10, 20] : List Int) 0 cBatch
        cResult.tree_node2batch_graph_node =
      .ok ([[10, 20, 0, 0, 0, 0, 0, 0, 0], [0, 0, 0, 0, 0, 0, 0, 0, 0]],
           [[1, 1, 0, 0, 0, 0, 0, 0, 0], [0, 0, 0, 0, 0, 0, 0, 0, 0]]) ∧
    max_node_num cBatch = 9 ∧
    specMaxTreeSize cBatch cResult.tree_node2batch_graph_node = 2 ∧
    (9 : Nat) ≠ 2 :=
  ⟨by decide, by decide, by decide, by decide, by decide⟩

/-- C6 witness (for the amended claim): row widths on the concrete batch
`cBatch` all equal `max_node_num cBatch`. -/
theorem C6_amended_max_tree_size_witness :
    (∀ row ∈ ([[1, 1, 0, 0, 0, 0, 0, 0, 0], [0, 0, 0, 0, 0, 0, 0, 0, 0]] :
        List (List Nat)), row.length = max_node_num cBatch) ∧
    (∀ row ∈ ([[10, 20, 0, 0, 0, 0, 0, 0, 0], [0, 0, 0, 0, 0, 0, 0, 0, 0]] :
        List (List Int)), row.length = max_node_num cBatch) :=
  C6_amended_max_tree_size ([10, 20] : List Int) 0 cBatch
    cResult.tree_node2batch_graph_node
    [[10, 20, 0, 0, 0, 0, 0, 0, 0], [0, 0, 0, 0, 0, 0, 0, 0, 0]]
    [[1, 1, 0, 0, 0, 0, 0, 0, 0], [0, 0, 0, 0, 0, 0, 0, 0, 0]] (by decide)

/-- C7 witness: the zero-padding property on the concrete unpacking of
`cBatch`, instantiated at row 1, column 0, a masked-out position. -/
theorem C7_zero_padding_witness :
    (([[10, 20, 0, 0, 0, 0, 0, 0, 0], [0, 0, 0, 0, 0, 0, 0, 0, 0]] :
        List (List Int)).getD 1 []).getD 0 0 = 0 :=
  C7_zero_padding ([10, 20] : List Int) 0 cBatch
    cResult.tree_node2batch_graph_node
    [[10, 20, 0, 0, 0, 0, 0, 0, 0], [0, 0, 0, 0, 0, 0, 0, 0, 0]]
    [[1, 1, 0, 0, 0, 0, 0, 0, 0], [0, 0, 0, 0, 0, 0, 0, 0, 0]] (by decide) 1 0
    (by decide)

/-- C10 witness: interval ordering and contiguity on `wBatch`. -/
theorem C10_contiguous_intervals_witness :
    (∀ i j ki kj ci cj, ((i, ki), ci) ∈ wResult.tree_node2batch_graph_node →
      ((j, kj), cj) ∈ wResult.tree_node2batch_graph_node → i < j → ci < cj) ∧
    (∀ i k1 k2 c1 c2 j k c, ((i, k1), c1) ∈ wResult.tree_node2batch_graph_node →
      ((i, k2), c2) ∈ wResult.tree_node2batch_graph_node →
      ((j, k), c) ∈ wResult.tree_node2batch_graph_node →
      c1 ≤ c → c ≤ c2 → j = i) :=
  C10_contiguous_intervals wBatch wResult (by decide)

end DIRE
